import Mathlib

/-!
Verification of the document-section locator and chunk-extraction engine of the
HKEX prospectus extractor (`src/utils/extractor.js`).

The page texts handled by the program are JavaScript strings; we embed them as
Lean `String`s and implement the string operations the code uses (`indexOf`,
`includes`, `substring`, `trim`, `toLowerCase`) on the underlying character
lists, together with bespoke matchers for the few fixed regular expressions the
code applies (`/^[A-Z][A-Z\s,&]+(?:\n|$)/m`, `/We\s+are\s+[^.!?]+[.!?]/i`,
`/cayman\s+islands?/i`, and the keyword patterns built by
`keyword.replace(/\s+/g, '\s+')` with flags `is`).  JavaScript string indices
are UTF-16 code-unit indices; all characters that matter to the heuristics are
in the basic plane, so character indices are a faithful model.

A document is modelled as the list of its page texts, page `n` being entry
`n - 1`; `pdfDoc.numPages` is the list length.
-/

namespace HKEX

/-- The JavaScript `\s` character class (ECMA-262 WhiteSpace ∪ LineTerminator),
used by `trim()` and by `\s` in the embedded regular expressions. -/
def jsWs (c : Char) : Bool :=
  let n := c.toNat
  n = 9 || n = 10 || n = 11 || n = 12 || n = 13 || n = 32 || n = 160 ||
  n = 0x1680 || (0x2000 ≤ n && n ≤ 0x200a) || n = 0x2028 || n = 0x2029 ||
  n = 0x202f || n = 0x205f || n = 0x3000 || n = 0xfeff

/-- `String.prototype.toLowerCase`, restricted to the basic-latin letters that
occur in the code's keywords (Lean's `Char.toLower` has exactly this ASCII
behaviour). -/
def lowerC (c : Char) : Char := Char.toLower c

/-- Case-insensitive character comparison, as produced by regex flag `i`. -/
def ciEq (c d : Char) : Bool := lowerC c == lowerC d

/-- JavaScript `String.prototype.indexOf` on character lists: index of the
first occurrence of `pat`, `none` standing for `-1`. -/
def listIndexOf (pat : List Char) : List Char → Option Nat
  | [] => if pat.isEmpty then some 0 else none
  | c :: t => if pat.isPrefixOf (c :: t) then some 0 else
      (listIndexOf pat t).map (· + 1)

/-- JavaScript `String.prototype.substring(a, b)` on character lists: clamps
both arguments to the string length, then swaps them if needed. -/
def jsSubstring (t : List Char) (a b : Nat) : List Char :=
  (t.take (max (min a t.length) (min b t.length))).drop
    (min (min a t.length) (min b t.length))

/-- JavaScript `String.prototype.trim` (drops `\s` characters at both ends). -/
def jsTrim (t : List Char) : List Char :=
  ((t.dropWhile jsWs).reverse.dropWhile jsWs).reverse

/-- JavaScript `String.prototype.includes` (case-sensitive substring test). -/
def includesS (t pat : String) : Bool := (listIndexOf pat.data t.data).isSome

/-! ## The next-chapter heading pattern `/^[A-Z][A-Z\s,&]+(?:\n|$)/m`

With the `m` flag, `^` matches at offset 0 or right after a LineTerminator
(`\n`, `\r`, U+2028, U+2029) and `$` matches at end of input or before a
LineTerminator.  All LineTerminators lie inside `[A-Z\s,&]` (via `\s`), so
greedy matching with backtracking gives: the leftmost match starts at the
first anchor position holding an uppercase letter followed by at least one
class character; it extends to the end of input if the class run reaches it,
and otherwise to the last LineTerminator inside the class run past its first
character — consuming it when it is `'\n'` (the `\n` alternative), stopping
before it otherwise (the `$` alternative).  If the run neither reaches the
end nor contains such a LineTerminator, there is no match at that anchor. -/

def isUpperAZ (c : Char) : Bool := 65 ≤ c.toNat && c.toNat ≤ 90

def isHeadCls (c : Char) : Bool := isUpperAZ c || jsWs c || c == ',' || c == '&'

/-- ECMA-262 LineTerminator (what multiline `^`/`$` anchor on). -/
def isLineTerm (c : Char) : Bool :=
  c == '\n' || c == '\r' || c.toNat = 0x2028 || c.toNat = 0x2029

/-- Largest index `j ≥ 1` with `l[j]` a LineTerminator (the backtracking
target of the greedy `[A-Z\s,&]+` before `(?:\n|$)`). -/
def lastLtAux : List Char → Nat → Option Nat
  | [], _ => none
  | c :: rest, idx =>
    match lastLtAux rest (idx + 1) with
    | some j => some j
    | none => if isLineTerm c ∧ 1 ≤ idx then some idx else none

/-- Attempt of the heading pattern at one anchor position. -/
def headingMatchAt : List Char → Option (List Char)
  | [] => none
  | c :: rest =>
    if isUpperAZ c then
      let run := rest.takeWhile isHeadCls
      if run.isEmpty then none
      else if (rest.drop run.length).isEmpty then some (c :: run)
      else
        match lastLtAux run 0 with
        | some j =>
          if run.get? j = some '\n' then some (c :: run.take (j + 1))
          else some (c :: run.take j)
        | none => none
    else none

/-- Scan anchors left to right (`anchor` records whether the current position
is the start of input or preceded by a LineTerminator). -/
def headingScanGo : List Char → Bool → Option (List Char)
  | [], _ => none
  | c :: rest, anchor =>
    match (if anchor then headingMatchAt (c :: rest) else none) with
    | some m => some m
    | none => headingScanGo rest (isLineTerm c)

/-- `pageText.match(/^[A-Z][A-Z\s,&]+(?:\n|$)/m)`: the first match, if any. -/
def firstHeadingMatch (t : List Char) : Option (List Char) :=
  headingScanGo t true

/-- The per-page test of `findChapterEndPage`: the page text has a heading
match whose trimmed text differs from the chapter title. -/
def pageHasNextHeading (t title : String) : Bool :=
  match firstHeadingMatch t.data with
  | some m => jsTrim m != title.data
  | none => false

/-! ## The identity-statement pattern `/We\s+are\s+[^.!?]+[.!?]/i` -/

def isSentPunct (c : Char) : Bool := c == '.' || c == '!' || c == '?'

/-- Attempt of the We-are pattern at one position.  The first `\s+` is
deterministic (the following pattern character `a` matches no whitespace),
but whitespace lies inside `[^.!?]`, so the engine may backtrack the second
`\s+` into the body: together `\s+[^.!?]+` consume exactly the run of
non-terminator characters before the first terminator, and they succeed iff
that run starts with a whitespace character and has at least two characters
(one for each `+`). -/
def weAreMatchAt : List Char → Option (List Char)
  | c1 :: c2 :: rest =>
    if lowerC c1 == 'w' && lowerC c2 == 'e' then
      let w1 := rest.takeWhile jsWs
      if w1.isEmpty then none else
      match rest.drop w1.length with
      | a :: r :: e :: rest2 =>
        if lowerC a == 'a' && lowerC r == 'r' && lowerC e == 'e' then
          let w2 := rest2.takeWhile jsWs
          if w2.isEmpty then none else
          let bodyAll := rest2.takeWhile (fun d => !isSentPunct d)
          if bodyAll.length < 2 then none else
          match rest2.drop bodyAll.length with
          | p :: _ =>
            if isSentPunct p
            then some ((c1 :: c2 :: (w1 ++ [a, r, e] ++ bodyAll)) ++ [p])
            else none
          | [] => none
        else none
      | _ => none
    else none
  | _ => none

/-- `pageText.match(/We\s+are\s+[^.!?]+[.!?]/i)`: leftmost match. -/
def weAreFirstMatch : List Char → Option (List Char)
  | [] => none
  | c :: rest =>
    match weAreMatchAt (c :: rest) with
    | some m => some m
    | none => weAreFirstMatch rest

/-! ## Company-type patterns -/

/-- Case-insensitive "is a prefix" for a literal token. -/
def ciTokPrefix (pat s : List Char) : Bool :=
  (s.take pat.length).map lowerC == pat.map lowerC

/-- Sequential token matching with mandatory whitespace (`\s+`) between
tokens, at a fixed position. -/
def tokensAt : List (List Char) → List Char → Bool
  | [], _ => true
  | [tk], s => ciTokPrefix tk s
  | tk :: tks, s =>
    ciTokPrefix tk s &&
      (let rest := s.drop tk.length
       let w := rest.takeWhile jsWs
       !w.isEmpty && tokensAt tks (rest.drop w.length))

/-- `.test` of a token sequence: does it match anywhere? -/
def tokensScan (tks : List (List Char)) : List Char → Bool
  | [] => tokensAt tks []
  | c :: rest => tokensAt tks (c :: rest) || tokensScan tks rest

/-- `detectCompanyType`: the three cayman patterns tried in order
(`/cayman\s+islands?/i`, `/开曼群岛/i`, and
`/incorporated\s+in\s+the\s+cayman\s+islands?/i` — the trailing `s?` is
optional, so each test is equivalent to matching the mandatory part);
first match returns `'cayman'`, otherwise `'non-cayman'`. -/
def detectCompanyType (firstPageText : String) : String :=
  if tokensScan ["cayman".data, "island".data] firstPageText.data then "cayman"
  else if includesS firstPageText "开曼群岛" then "cayman"
  else if tokensScan ["incorporated".data, "in".data, "the".data,
      "cayman".data, "island".data] firstPageText.data then "cayman"
  else "non-cayman"

/-! ## Keyword patterns of `extractProfessionalChunks`

For a keyword containing a space the code builds
`new RegExp(keyword.replace(/\s+/g, '\\s+'), 'is')`: each whitespace run
becomes `\s+`, a bracketed segment (present in the `[REDACTED]` keywords)
becomes a character class, and every other character is a literal; flag `i`
makes all comparisons case-insensitive (flag `s` is irrelevant, the patterns
contain no `.`).  Backtracking never helps these patterns: every item that can
follow a `\s+` matches only non-whitespace characters, so the greedy full-run
interpretation of `\s+` below is exact. -/

inductive PatItem where
  | lit (c : Char)
  | wsPlus
  | cls (cs : List Char)
deriving DecidableEq, Repr

def compilePatAux : Nat → List Char → List PatItem
  | 0, _ => []
  | _, [] => []
  | fuel + 1, c :: rest =>
    if jsWs c then PatItem.wsPlus :: compilePatAux fuel (rest.dropWhile jsWs)
    else if c = '[' then
      let cs := rest.takeWhile (fun d => d ≠ ']')
      PatItem.cls cs :: compilePatAux fuel (rest.drop (cs.length + 1))
    else PatItem.lit c :: compilePatAux fuel rest

/-- Compile a keyword into its pattern item list (the fuel only serves
structural recursion; each step consumes at least one character, so
`kw.length` is always enough). -/
def compilePat (kw : List Char) : List PatItem := compilePatAux kw.length kw

/-- Match a compiled pattern at the head of `s`, returning the number of
characters consumed. -/
def matchPat : List PatItem → List Char → Option Nat
  | [], _ => some 0
  | PatItem.lit _ :: _, [] => none
  | PatItem.lit c :: items, d :: s =>
    if ciEq c d then (matchPat items s).map (· + 1) else none
  | PatItem.cls _ :: _, [] => none
  | PatItem.cls cs :: items, d :: s =>
    if cs.any (fun c => ciEq c d) then (matchPat items s).map (· + 1) else none
  | PatItem.wsPlus :: items, s =>
    let k := (s.takeWhile jsWs).length
    if k = 0 then none else (matchPat items (s.drop k)).map (· + k)

/-- `regex.exec(text)`: leftmost match position and length. -/
def flexScan (items : List PatItem) : Nat → List Char → Option (Nat × Nat)
  | p, [] => (matchPat items []).map (fun n => (p, n))
  | p, c :: rest =>
    match matchPat items (c :: rest) with
    | some n => some (p, n)
    | none => flexScan items (p + 1) rest

def flexExec (text kw : List Char) : Option (Nat × Nat) :=
  flexScan (compilePat kw) 0 text

/-- The per-keyword search of `extractProfessionalChunks`: phrase keywords
(containing a space) go through the flexible regex, single-word keywords use
`toLowerCase().indexOf`. -/
def matchKeyword (text kw : List Char) : Option (Nat × Nat) :=
  if kw.contains ' ' then flexExec text kw
  else (listIndexOf (kw.map lowerC) (text.map lowerC)).map (fun i => (i, kw.length))

/-! ## Documents, pages and occurrences

A document is the list of its page texts; page numbers are 1-based and
`numPages` is the list length.  `extractPageTextP` is the pure behaviour of
`extractPageText` inside one run: a page access that fails (in particular an
out-of-range page number) is caught and yields `''`. -/

def extractPageTextP (doc : List String) (n : Nat) : String :=
  (doc.get? (n - 1)).getD ""

/-- One entry of `foundOccurrences`: `{ page, keyword }`. -/
structure Occurrence where
  page : Nat
  keyword : String
deriving DecidableEq, Repr

def caymanDirKeywords : List String :=
  ["Directors and Parties Involved", "DIRECTORS AND PARTIES INVOLVED"]

def nonCaymanDirKeywords : List String :=
  ["Directors, Supervisors and Parties Involved",
   "DIRECTORS, SUPERVISORS AND PARTIES INVOLVED"]

def directorsKeywords (companyType : String) : List String :=
  if companyType = "cayman" then caymanDirKeywords else nonCaymanDirKeywords

/-- The collection loop of `findDirectorsSection`: every page of the whole
document in ascending order, every keyword in list order per page. -/
def collectOccurrences (doc : List String) (kws : List String) : List Occurrence :=
  (List.range' 1 doc.length).flatMap fun p =>
    (kws.filter fun kw => includesS (extractPageTextP doc p) kw).map
      fun kw => Occurrence.mk p kw

/-- Stable insertion (the JavaScript `sort((a, b) => a.page - b.page)` is
stable: equal pages keep their original relative order). -/
def insertByPage (o : Occurrence) : List Occurrence → List Occurrence
  | [] => [o]
  | x :: xs => if x.page < o.page then x :: insertByPage o xs else o :: x :: xs

def sortByPage : List Occurrence → List Occurrence
  | [] => []
  | x :: xs => insertByPage x (sortByPage xs)

/-- The tie-break of `findDirectorsSection` (lines 469-499): on a non-empty
occurrence list, ignore the first `validIdx` occurrences (3 if more than 10
occurrences, else 2); if not enough occurrences remain, fall back to the last
one. -/
def selectedOccurrence (l : List Occurrence) : Option Occurrence :=
  if l.isEmpty then none
  else
    let validIdx := if 10 < l.length then 3 else 2
    if validIdx < l.length then l.get? validIdx else l.getLast?

structure SectionInfo where
  startPage : Nat
  endPage : Nat
  title : String
deriving DecidableEq, Repr

/-! ## Chapter end page

`findChapterEndPage` only reads pages through `extractPageText`; to model its
`try/catch` the page-text getter is abstracted as a fallible function (the
pure pipeline instantiates it with the never-failing `pageOk doc`).  Along
with the resulting end page we record the trace of pages examined. -/

abbrev PageGetter := Nat → Except Unit String

def pageOk (doc : List String) : PageGetter :=
  fun n => Except.ok (extractPageTextP doc n)

/-- The pages visited by the `for` loop of `findChapterEndPage`:
`startPage + 1` through `min(startPage + 20, numPages)`. -/
def chapterScanPages (startPage numPages : Nat) : List Nat :=
  List.range' (startPage + 1) (min (startPage + 20) numPages - startPage)

def chapterScanGo (g : PageGetter) (numPages startPage : Nat) (title : String) :
    List Nat → Nat × List Nat
  | [] => (min (startPage + 10) numPages, [])
  | p :: ps =>
    match g p with
    | Except.error _ => (min (startPage + 5) numPages, [p])
    | Except.ok t =>
      if pageHasNextHeading t title then (p - 1, [p])
      else
        let r := chapterScanGo g numPages startPage title ps
        (r.1, p :: r.2)

def findChapterEndPageCore (g : PageGetter) (numPages startPage : Nat)
    (title : String) : Nat × List Nat :=
  chapterScanGo g numPages startPage title (chapterScanPages startPage numPages)

def findChapterEndPage (doc : List String) (startPage : Nat) (title : String) : Nat :=
  (findChapterEndPageCore (pageOk doc) doc.length startPage title).1

/-! ## Summary and Directors section search (with page-access traces) -/

def summaryKeywordHit (t : String) : Option String :=
  if includesS t "SUMMARY" then some "SUMMARY"
  else if includesS t "Summary" then some "Summary"
  else none

def summaryScanGo (doc : List String) : List Nat → Option SectionInfo × List Nat
  | [] => (none, [])
  | p :: ps =>
    match summaryKeywordHit (extractPageTextP doc p) with
    | some kw =>
      let r := findChapterEndPageCore (pageOk doc) doc.length p kw
      (some (SectionInfo.mk p r.1 kw), p :: r.2)
    | none =>
      let r := summaryScanGo doc ps
      (r.1, p :: r.2)

/-- `findSummarySection` searches only the first `min(30, numPages)` pages and
returns at the first page containing a keyword; the second component is the
trace of pages read (including those read by `findChapterEndPage`). -/
def findSummarySectionT (doc : List String) : Option SectionInfo × List Nat :=
  summaryScanGo doc (List.range' 1 (min 30 doc.length))

def findSummarySection (doc : List String) : Option SectionInfo :=
  (findSummarySectionT doc).1

/-- The occurrence list `findDirectorsSection` ends up selecting from: the
primary keyword family of the company type and — only when the type is not
`'cayman'` and the primary scan found nothing — a second full scan with the
cayman keywords. -/
def directorsOccurrences (doc : List String) (companyType : String) :
    List Occurrence :=
  let primary := collectOccurrences doc (directorsKeywords companyType)
  if companyType ≠ "cayman" ∧ primary.isEmpty then
    collectOccurrences doc caymanDirKeywords
  else primary

def findDirectorsSectionT (doc : List String) (companyType : String) :
    Option SectionInfo × List Nat :=
  let primary := collectOccurrences doc (directorsKeywords companyType)
  let fallbackTrace : List Nat :=
    if companyType ≠ "cayman" ∧ primary.isEmpty then List.range' 1 doc.length
    else []
  match selectedOccurrence (sortByPage (directorsOccurrences doc companyType)) with
  | none => (none, List.range' 1 doc.length ++ fallbackTrace)
  | some o =>
    let r := findChapterEndPageCore (pageOk doc) doc.length o.page o.keyword
    (some (SectionInfo.mk o.page r.1 o.keyword),
      List.range' 1 doc.length ++ fallbackTrace ++ r.2)

def findDirectorsSection (doc : List String) (companyType : String) :
    Option SectionInfo :=
  (findDirectorsSectionT doc companyType).1

/-! ## Paragraph extraction (`extractParagraphContaining`) -/

/-- `pageText.substring(i, i + 2) === '\n\n'`. -/
def dblNlAt (t : List Char) (i : Nat) : Bool :=
  (t.get? i == some '\n') && (t.get? (i + 1) == some '\n')

/-- The backward loop: largest `i ≤ sIdx - 1` with a double newline at `i`
gives `i + 2`, otherwise 0 (also when `sIdx = 0`, where the loop body never
runs). -/
def paraStart (t : List Char) (sIdx : Nat) : Nat :=
  match (List.range sIdx).reverse.find? (fun i => dblNlAt t i) with
  | some i => i + 2
  | none => 0

/-- The forward loop: smallest `i` in `[e0, length - 2]` with a double newline
at `i`, else `length` if the loop ran at all, else `e0` unchanged. -/
def paraEnd (t : List Char) (e0 : Nat) : Nat :=
  match (List.range' e0 (t.length - 1 - e0)).find? (fun i => dblNlAt t i) with
  | some i => i
  | none => if e0 + 1 < t.length then t.length else e0

def extractParagraphContaining (pageText sentence : String) : String :=
  match listIndexOf sentence.data pageText.data with
  | none => sentence
  | some sIdx =>
    let startIndex := paraStart pageText.data sIdx
    let endIndex := paraEnd pageText.data (sIdx + sentence.data.length)
    String.mk (jsTrim (jsSubstring pageText.data startIndex endIndex))

/-! ## The We-are statement search -/

structure WeAreResult where
  text : String
  location : Option (Nat × String)
deriving DecidableEq, Repr

def weAreScanPages (doc : List String) : List Nat → WeAreResult
  | [] => WeAreResult.mk "" none
  | p :: ps =>
    match weAreFirstMatch (extractPageTextP doc p).data with
    | some sent =>
      WeAreResult.mk
        (extractParagraphContaining (extractPageTextP doc p) (String.mk sent))
        (some (p, String.mk sent))
    | none => weAreScanPages doc ps

def extractWeAreStatement (doc : List String) : WeAreResult :=
  weAreScanPages doc (List.range' 1 doc.length)

/-! ## Professional keyword chunks (`extractProfessionalChunks`) -/

structure Chunk where
  keyword : String
  chunk : String
deriving DecidableEq, Repr

/-- The context window around a keyword match (lines 911-913):
`text.substring(Math.max(0, i - 50), Math.min(text.length, i + L + 500)).trim()`
(`Math.max(0, i - 50)` is truncated subtraction on `Nat`). -/
def chunkWindow (text : String) (matchIndex matchLength : Nat) : String :=
  String.mk (jsTrim (jsSubstring text.data (matchIndex - 50)
    (min text.data.length (matchIndex + matchLength + 500))))

def chunksFor (text : String) (kws : List String) : List Chunk :=
  kws.filterMap fun kw =>
    (matchKeyword text.data kw.data).map fun m =>
      Chunk.mk kw (chunkWindow text m.1 m.2)

def sponsorsKeywords : List String :=
  ["Sponsors", "Sponsor", "Joint Sponsors", "Joint Sponsor", "Sole Sponsor"]

def auditorsKeywords : List String :=
  ["Auditors", "Auditor", "Reporting Accountants", "Reporting Accountant"]

def industryConsultantsKeywords : List String :=
  ["Industry Consultant", "Industry Consultants"]

def legalAdvisersToCompanyKeywords : List String :=
  ["Legal Advisers to the Company",
   "Legal Adviser to the Company",
   "Legal Advisors to the Company",
   "Legal Advisor to the Company",
   "Legal Advisers to our Company",
   "Legal Adviser to our Company",
   "Legal Advisors to our Company",
   "Legal Advisor to our Company",
   "Legal Advisers to Company",
   "Legal Adviser to Company",
   "Legal Advisors to Company",
   "Legal Advisor to Company"]

def legalAdvisersToSponsorsKeywords : List String :=
  ["Legal Advisers to the Sponsors",
   "Legal Adviser to the Sponsors",
   "Legal Advisors to the Sponsors",
   "Legal Advisor to the Sponsors",
   "Legal Advisers to Sponsors",
   "Legal Adviser to Sponsors",
   "Legal Advisors to Sponsors",
   "Legal Advisor to Sponsors",
   "Legal Advisors to the Sponsor",
   "Legal Advisers to the Sole Sponsor",
   "Legal Adviser to the Sole Sponsor",
   "Legal Advisors to the Sole Sponsor",
   "Legal Advisor to the Sole Sponsor",
   "Legal Advisers to Sole Sponsor",
   "Legal Adviser to Sole Sponsor",
   "Legal Advisors to Sole Sponsor",
   "Legal Advisor to Sole Sponsor",
   "Legal Advisers to our Sole Sponsor",
   "Legal Adviser to our Sole Sponsor",
   "Legal Advisors to our Sole Sponsor",
   "Legal Advisor to our Sole Sponsor",
   "Legal Advisers to the Joint Sponsors",
   "Legal Adviser to the Joint Sponsors",
   "Legal Advisors to the Joint Sponsors",
   "Legal Advisor to the Joint Sponsors",
   "Legal Advisers to Joint Sponsors",
   "Legal Adviser to Joint Sponsors",
   "Legal Advisors to Joint Sponsors",
   "Legal Advisor to Joint Sponsors",
   "Legal Advisers to our Joint Sponsors",
   "Legal Adviser to our Joint Sponsors",
   "Legal Advisors to our Joint Sponsors",
   "Legal Advisor to our Joint Sponsors",
   "Legal Advisers to the Joint",
   "Legal Adviser to the Joint",
   "Legal Advisors to the Joint",
   "Legal Advisor to the Joint",
   "Legal Advisers to Joint",
   "Legal Adviser to Joint",
   "Legal Advisors to Joint",
   "Legal Advisor to Joint",
   "Legal Advisers to our Joint",
   "Legal Adviser to our Joint",
   "Legal Advisors to our Joint",
   "Legal Advisor to our Joint",
   "Legal Advisers to the Sole",
   "Legal Adviser to the Sole",
   "Legal Advisors to the Sole",
   "Legal Advisor to the Sole",
   "Legal Advisers to Sole",
   "Legal Adviser to Sole",
   "Legal Advisors to Sole",
   "Legal Advisor to Sole",
   "Legal Advisers to our Sole",
   "Legal Adviser to our Sole",
   "Legal Advisors to our Sole",
   "Legal Advisor to our Sole",
   "Legal advisor to the [REDACTED]",
   "Legal advisors to the [REDACTED]",
   "Legal advisor to our [REDACTED]",
   "Legal advisors to our [REDACTED]"]

def allProfessionalKeywords : List String :=
  sponsorsKeywords ++ auditorsKeywords ++ industryConsultantsKeywords ++
    legalAdvisersToCompanyKeywords ++ legalAdvisersToSponsorsKeywords

structure ProfChunks where
  sponsorsChunk : List Chunk
  auditorsChunk : List Chunk
  industryConsultantsChunk : List Chunk
  legalAdvisersToCompanyChunk : List Chunk
  legalAdvisersToSponsorsChunk : List Chunk
deriving DecidableEq, Repr

def extractProfessionalChunks (directorsText : String) : ProfChunks :=
  ProfChunks.mk
    (chunksFor directorsText sponsorsKeywords)
    (chunksFor directorsText auditorsKeywords)
    (chunksFor directorsText industryConsultantsKeywords)
    (chunksFor directorsText legalAdvisersToCompanyKeywords)
    (chunksFor directorsText legalAdvisersToSponsorsKeywords)

/-! ## The orchestrator (`extractAllRequiredSections`) -/

def extractChapterText (doc : List String) (startPage endPage : Nat) : String :=
  String.mk ((List.range' startPage (endPage + 1 - startPage)).foldl
    (fun acc p => acc ++ (extractPageTextP doc p).data ++ ['\n']) [])

structure SectionsBundle where
  firstPageText : String
  companyType : String
  weAreText : String
  summaryText : String
  directorsText : String
  directorPages : String
  weAreLocation : Option (Nat × String)
  professionalChunks : ProfChunks
deriving DecidableEq, Repr

def extractAllRequiredSections (doc : List String) : SectionsBundle :=
  let firstPageText := extractPageTextP doc 1
  let companyType := detectCompanyType firstPageText
  let weAre := extractWeAreStatement doc
  let summaryText :=
    match findSummarySection doc with
    | some s => extractChapterText doc s.startPage s.endPage
    | none => weAre.text
  let dsec := findDirectorsSection doc companyType
  let directorsText :=
    match dsec with
    | some s => extractChapterText doc s.startPage s.endPage
    | none => ""
  let directorPages :=
    match dsec with
    | some s => toString s.startPage ++ "-" ++ toString s.endPage
    | none => ""
  SectionsBundle.mk firstPageText companyType weAre.text summaryText
    directorsText directorPages weAre.location
    (extractProfessionalChunks directorsText)

/-! ## The page-text cache (`extractPageText`, lines 548-567)

`extractPageText` is modelled against an abstract fallible accessor (the
`pdfDoc.getPage` / `getTextContent` pipeline); the third component counts the
accessor invocations the call performed.  A cache hit does not touch the
accessor; a successful access is cached; a failed access is caught, yields
`''`, and caches nothing. -/

def extractPageTextC (acc : PageGetter) (cache : List (Nat × String)) (n : Nat) :
    String × List (Nat × String) × Nat :=
  match cache.lookup n with
  | some t => (t, cache, 0)
  | none =>
    match acc n with
    | Except.ok t => (t, (n, t) :: cache, 1)
    | Except.error _ => ("", cache, 1)

/-! ## Well-formedness of compiled keyword patterns -/

/-- A pattern item that consumes exactly one non-whitespace character. -/
def itemSolid : PatItem → Bool
  | PatItem.lit c => !jsWs c
  | PatItem.cls cs => !cs.isEmpty && cs.all (fun c => !jsWs c)
  | PatItem.wsPlus => false

def itemFine : PatItem → Bool
  | PatItem.wsPlus => true
  | it => itemSolid it

/-- Good pattern: non-empty, all single-character items non-whitespace, and
the last item is not `\s+`. -/
def patGood : List PatItem → Bool
  | [] => false
  | [it] => itemSolid it
  | it :: rest => itemFine it && patGood rest

def headSolid : List PatItem → Bool
  | [] => false
  | it :: _ => itemSolid it

/-- Well-formedness of a keyword for the purposes of the window lemmas: its
match always starts and ends with a non-whitespace character. -/
def kwGood (kw : List Char) : Bool :=
  if kw.contains ' ' then
    patGood (compilePat kw) && headSolid (compilePat kw)
  else
    match kw.head?, kw.getLast? with
    | some c, some d => !jsWs c && !jsWs d
    | _, _ => false

/-! ## Proof development

Basic facts about the character classes and string primitives, followed by
the lemmas supporting each claim theorem. -/

lemma jsWs_toNat {c : Char} (h : jsWs c = true) :
    c.toNat = 9 ∨ c.toNat = 10 ∨ c.toNat = 11 ∨ c.toNat = 12 ∨ c.toNat = 13 ∨
    c.toNat = 32 ∨ c.toNat = 160 ∨ c.toNat = 0x1680 ∨
    (0x2000 ≤ c.toNat ∧ c.toNat ≤ 0x200a) ∨ c.toNat = 0x2028 ∨
    c.toNat = 0x2029 ∨ c.toNat = 0x202f ∨ c.toNat = 0x205f ∨
    c.toNat = 0x3000 ∨ c.toNat = 0xfeff := by
  simp only [jsWs, Bool.or_eq_true, decide_eq_true_eq, Bool.and_eq_true] at h
  omega

lemma jsWs_of_toNat {c : Char}
    (h : c.toNat = 9 ∨ c.toNat = 10 ∨ c.toNat = 11 ∨ c.toNat = 12 ∨
      c.toNat = 13 ∨ c.toNat = 32 ∨ c.toNat = 160 ∨ c.toNat = 0x1680 ∨
      (0x2000 ≤ c.toNat ∧ c.toNat ≤ 0x200a) ∨ c.toNat = 0x2028 ∨
      c.toNat = 0x2029 ∨ c.toNat = 0x202f ∨ c.toNat = 0x205f ∨
      c.toNat = 0x3000 ∨ c.toNat = 0xfeff) : jsWs c = true := by
  simp only [jsWs, Bool.or_eq_true, decide_eq_true_eq, Bool.and_eq_true]
  omega

/-- Whitespace characters are unchanged by `toLowerCase`. -/
lemma lowerC_of_jsWs {c : Char} (h : jsWs c = true) : lowerC c = c := by
  have hn := jsWs_toNat h
  unfold lowerC Char.toLower
  have : ¬(c.toNat ≥ 65 ∧ c.toNat ≤ 90) := by omega
  simp [this]

lemma toNat_ofNat_of_lt {n : Nat} (h : n < 0xd800) : (Char.ofNat n).toNat = n := by
  rw [Char.ofNat, dif_pos (Or.inl h)]
  rfl

/-- `toLowerCase` never turns a non-whitespace character into whitespace. -/
lemma jsWs_lowerC {c : Char} (h : jsWs (lowerC c) = true) : jsWs c = true := by
  unfold lowerC Char.toLower at h
  by_cases hc : c.toNat ≥ 65 ∧ c.toNat ≤ 90
  · rw [if_pos hc] at h
    have hv : (Char.ofNat (c.toNat + 32)).toNat = c.toNat + 32 :=
      toNat_ofNat_of_lt (by omega)
    have := jsWs_toNat h
    rw [hv] at this
    omega
  · rwa [if_neg hc] at h

/-- Equal lower-casings with one side non-whitespace force the other side
non-whitespace. -/
lemma jsWs_eq_of_lowerC_eq {c d : Char} (h : lowerC c = lowerC d)
    (hd : jsWs d = false) : jsWs c = false := by
  by_contra hc
  rw [Bool.not_eq_false] at hc
  have h1 : lowerC c = c := lowerC_of_jsWs hc
  have : jsWs (lowerC d) = true := by rw [← h, h1]; exact hc
  rw [jsWs_lowerC this] at hd
  cases hd

lemma listIndexOf_spec {pat t : List Char} {i : Nat}
    (h : listIndexOf pat t = some i) :
    pat <+: t.drop i ∧ i + pat.length ≤ t.length := by
  induction t generalizing i with
  | nil =>
    simp only [listIndexOf] at h
    rcases pat with _ | ⟨c, pat⟩
    · simp at h; subst h; simp
    · simp at h
  | cons c t ih =>
    simp only [listIndexOf] at h
    by_cases hp : pat.isPrefixOf (c :: t)
    · rw [if_pos hp] at h
      have hpre : pat <+: c :: t := List.isPrefixOf_iff_prefix.mp hp
      cases h
      exact ⟨by simpa using hpre, by simpa using hpre.length_le⟩
    · rw [if_neg hp] at h
      rcases Option.map_eq_some'.mp h with ⟨j, hj, rfl⟩
      rcases ih hj with ⟨h1, h2⟩
      refine ⟨by simpa using h1, ?_⟩
      simp only [List.length_cons]
      omega

lemma jsSubstring_of_le {t : List Char} {a b : Nat} (hab : a ≤ b)
    (hb : b ≤ t.length) : jsSubstring t a b = (t.take b).drop a := by
  unfold jsSubstring
  have h1 : min a t.length = a := by omega
  have h2 : min b t.length = b := by omega
  rw [h1, h2, Nat.max_eq_right hab, Nat.min_eq_left hab]

lemma jsSubstring_length_eq (t : List Char) (a b : Nat) :
    (jsSubstring t a b).length =
      max (min a t.length) (min b t.length) -
        min (min a t.length) (min b t.length) := by
  unfold jsSubstring
  simp only [List.length_drop, List.length_take]
  have h1 : min a t.length ≤ t.length := Nat.min_le_right _ _
  have h2 : min b t.length ≤ t.length := Nat.min_le_right _ _
  simp only [Nat.max_def, Nat.min_def]
  split_ifs <;> omega

lemma jsTrim_length_le (t : List Char) : (jsTrim t).length ≤ t.length := by
  unfold jsTrim
  calc ((t.dropWhile jsWs).reverse.dropWhile jsWs).reverse.length
      = ((t.dropWhile jsWs).reverse.dropWhile jsWs).length := by
        rw [List.length_reverse]
    _ ≤ (t.dropWhile jsWs).reverse.length :=
        (List.dropWhile_sublist jsWs).length_le
    _ = (t.dropWhile jsWs).length := by rw [List.length_reverse]
    _ ≤ t.length := (List.dropWhile_sublist jsWs).length_le

lemma dropWhile_append_mid {m : List Char} (pre post : List Char) {c : Char}
    (hh : m.head? = some c) (hc : jsWs c = false) :
    ∃ q : List Char, List.dropWhile jsWs (pre ++ m ++ post) = q ++ m ++ post := by
  induction pre with
  | nil =>
    refine ⟨[], ?_⟩
    rcases m with _ | ⟨d, m⟩
    · cases hh
    · simp only [List.head?_cons, Option.some.injEq] at hh
      subst hh
      simp [List.dropWhile_cons, hc]
  | cons p pre ih =>
    by_cases hp : jsWs p
    · rcases ih with ⟨q, hq⟩
      exact ⟨q, by simpa [List.dropWhile_cons, hp] using hq⟩
    · exact ⟨p :: pre, by simp [List.dropWhile_cons, hp]⟩

/-- Trimming a string that contains `m` strictly inside (non-whitespace first
and last characters of `m`) keeps `m` intact. -/
lemma jsTrim_keeps_mid {m : List Char} (pre post : List Char) {c₁ c₂ : Char}
    (hh : m.head? = some c₁) (hc₁ : jsWs c₁ = false)
    (hl : m.getLast? = some c₂) (hc₂ : jsWs c₂ = false) :
    m <:+: jsTrim (pre ++ m ++ post) := by
  rcases dropWhile_append_mid pre post hh hc₁ with ⟨q, hq⟩
  unfold jsTrim
  rw [hq]
  have hrev : (q ++ m ++ post).reverse = post.reverse ++ m.reverse ++ q.reverse := by
    simp [List.reverse_append, List.append_assoc]
  have hh' : m.reverse.head? = some c₂ := by
    rw [List.head?_reverse]; exact hl
  rcases dropWhile_append_mid post.reverse q.reverse hh' hc₂ with ⟨r, hr⟩
  rw [hrev, hr]
  refine ⟨q.reverse.reverse, r.reverse, ?_⟩
  simp [List.reverse_append, List.append_assoc]

/-! ## Lemmas about paragraph extraction -/

lemma paraStart_le {t : List Char} {sIdx : Nat}
    (h : t.get? sIdx ≠ some '\n') : paraStart t sIdx ≤ sIdx := by
  unfold paraStart
  cases hf : (List.range sIdx).reverse.find? (fun i => dblNlAt t i) with
  | none => exact Nat.zero_le _
  | some i =>
    dsimp only
    have hi : i ∈ (List.range sIdx).reverse := List.mem_of_find?_eq_some hf
    rw [List.mem_reverse, List.mem_range] at hi
    have hp : dblNlAt t i = true := List.find?_some hf
    simp only [dblNlAt, Bool.and_eq_true, beq_iff_eq] at hp
    rcases hp with ⟨-, hp2⟩
    have : i + 1 ≠ sIdx := fun he => h (he ▸ hp2)
    omega

lemma paraEnd_ge (t : List Char) (e0 : Nat) : e0 ≤ paraEnd t e0 := by
  unfold paraEnd
  cases hf : (List.range' e0 (t.length - 1 - e0)).find? (fun i => dblNlAt t i) with
  | none =>
    dsimp only
    split_ifs with h
    · omega
    · exact le_refl _
  | some i =>
    dsimp only
    have hi : i ∈ List.range' e0 (t.length - 1 - e0) := List.mem_of_find?_eq_some hf
    rw [List.mem_range'_1] at hi
    exact hi.1

lemma paraEnd_le {t : List Char} {e0 : Nat} (h : e0 ≤ t.length) :
    paraEnd t e0 ≤ t.length := by
  unfold paraEnd
  cases hf : (List.range' e0 (t.length - 1 - e0)).find? (fun i => dblNlAt t i) with
  | none =>
    dsimp only
    split_ifs with hc
    · exact le_refl _
    · exact h
  | some i =>
    dsimp only
    have hi : i ∈ List.range' e0 (t.length - 1 - e0) := List.mem_of_find?_eq_some hf
    rw [List.mem_range'_1] at hi
    omega

/-- A slice `[a, b)` of `t` that covers an occurrence of `s` at index `i`
splits around that occurrence. -/
lemma slice_decompose {t s : List Char} {i a b : Nat} (ha : a ≤ i)
    (hb : i + s.length ≤ b) (_hbl : b ≤ t.length) (hpre : s <+: t.drop i) :
    ∃ pre post : List Char, (t.take b).drop a = pre ++ s ++ post := by
  have h1 : ((t.take b).drop a).drop (i - a) = (t.drop i).take (b - i) := by
    rw [List.drop_drop]
    have : a + (i - a) = i := by omega
    rw [this, List.drop_take]
  have h2 : s <+: (t.drop i).take (b - i) := by
    rw [List.prefix_take_iff]
    exact ⟨hpre, by omega⟩
  rcases h2 with ⟨post, hpost⟩
  refine ⟨((t.take b).drop a).take (i - a), post, ?_⟩
  conv_lhs => rw [← List.take_append_drop (i - a) ((t.take b).drop a)]
  rw [h1, ← hpost, List.append_assoc]

lemma head?_of_prefix {s r : List Char} {c : Char} (h : s.head? = some c) :
    (s ++ r).head? = some c := by
  rcases s with _ | ⟨d, s⟩
  · cases h
  · simpa using h

/-- Core containment fact for `extractParagraphContaining`: if the sentence
starts and ends with non-whitespace characters, the extracted paragraph
contains it verbatim. -/
lemma extractParagraphContaining_infix (pageText sentence : String)
    {c₁ c₂ : Char}
    (hh : sentence.data.head? = some c₁) (hc₁ : jsWs c₁ = false)
    (hl : sentence.data.getLast? = some c₂) (hc₂ : jsWs c₂ = false) :
    sentence.data <:+: (extractParagraphContaining pageText sentence).data := by
  unfold extractParagraphContaining
  cases hidx : listIndexOf sentence.data pageText.data with
  | none => exact List.infix_refl _
  | some sIdx =>
    obtain ⟨hpre, hlen⟩ := listIndexOf_spec hidx
    have hget : pageText.data.get? sIdx = some c₁ := by
      rcases hpre with ⟨r, hr⟩
      rw [List.get?_eq_getElem?, ← List.head?_drop, ← hr]
      exact head?_of_prefix hh
    have hnl : pageText.data.get? sIdx ≠ some '\n' := by
      rw [hget]
      intro he
      have : c₁ = '\n' := by injection he
      rw [this] at hc₁
      have : jsWs '\n' = true := by decide
      rw [this] at hc₁
      cases hc₁
    have hstart : paraStart pageText.data sIdx ≤ sIdx := paraStart_le hnl
    have hbge : sIdx + sentence.data.length ≤
        paraEnd pageText.data (sIdx + sentence.data.length) := paraEnd_ge _ _
    have hble : paraEnd pageText.data (sIdx + sentence.data.length) ≤
        pageText.data.length := paraEnd_le hlen
    have hab : paraStart pageText.data sIdx ≤
        paraEnd pageText.data (sIdx + sentence.data.length) := by omega
    simp only []
    rw [jsSubstring_of_le hab hble]
    obtain ⟨pre, post, hdec⟩ :=
      slice_decompose (t := pageText.data) (s := sentence.data)
        hstart hbge hble hpre
    rw [hdec]
    exact jsTrim_keeps_mid pre post hh hc₁ hl hc₂

/-! ## Shape of We-are matches -/

lemma jsWs_of_sentPunct {p : Char} (h : isSentPunct p = true) : jsWs p = false := by
  simp only [isSentPunct, Bool.or_eq_true, beq_iff_eq] at h
  rcases h with (h | h) | h <;> subst h <;> decide

/-- Every match of `/We\s+are\s+[^.!?]+[.!?]/i` starts with a `w`/`W` and ends
with a sentence terminator; in particular both end characters are
non-whitespace. -/
lemma weAreMatchAt_shape {s m : List Char} (h : weAreMatchAt s = some m) :
    ∃ c₁ c₂, m.head? = some c₁ ∧ jsWs c₁ = false ∧
      m.getLast? = some c₂ ∧ jsWs c₂ = false := by
  rcases s with _ | ⟨c1, _ | ⟨c2, rest⟩⟩
  · cases h
  · cases h
  · unfold weAreMatchAt at h
    dsimp only at h
    by_cases h12 : (lowerC c1 == 'w' && lowerC c2 == 'e') = true
    · rw [if_pos h12] at h
      have hc1 : jsWs c1 = false := by
        have hl1 : lowerC c1 = 'w' :=
          beq_iff_eq.mp ((Bool.and_eq_true _ _).mp h12).1
        exact jsWs_eq_of_lowerC_eq (d := 'w') (by rw [hl1]; decide) (by decide)
      by_cases hw1 : (List.takeWhile jsWs rest).isEmpty = true
      · rw [if_pos hw1] at h; cases h
      · rw [if_neg hw1] at h
        rcases hd : List.drop (List.takeWhile jsWs rest).length rest with
          _ | ⟨a, _ | ⟨r, _ | ⟨e, rest2⟩⟩⟩
        · rw [hd] at h; cases h
        · rw [hd] at h; cases h
        · rw [hd] at h; cases h
        · rw [hd] at h
          dsimp only at h
          by_cases hare :
              (lowerC a == 'a' && lowerC r == 'r' && lowerC e == 'e') = true
          · rw [if_pos hare] at h
            by_cases hw2 : (List.takeWhile jsWs rest2).isEmpty = true
            · rw [if_pos hw2] at h; cases h
            · rw [if_neg hw2] at h
              by_cases hbody : (List.takeWhile (fun d => !isSentPunct d)
                  rest2).length < 2
              · rw [if_pos hbody] at h; cases h
              · rw [if_neg hbody] at h
                rcases he : List.drop
                      (List.takeWhile (fun d => !isSentPunct d) rest2).length
                      rest2 with
                  _ | ⟨p, tail⟩
                · rw [he] at h; cases h
                · rw [he] at h
                  dsimp only at h
                  by_cases hp : isSentPunct p = true
                  · rw [if_pos hp] at h
                    injection h with hm
                    subst hm
                    exact ⟨c1, p, rfl, hc1, List.getLast?_concat _,
                      jsWs_of_sentPunct hp⟩
                  · rw [if_neg hp] at h; cases h
          · rw [if_neg hare] at h; cases h
    · rw [if_neg h12] at h; cases h

lemma weAreFirstMatch_shape {t m : List Char} (h : weAreFirstMatch t = some m) :
    ∃ c₁ c₂, m.head? = some c₁ ∧ jsWs c₁ = false ∧
      m.getLast? = some c₂ ∧ jsWs c₂ = false := by
  induction t with
  | nil => cases h
  | cons c rest ih =>
    unfold weAreFirstMatch at h
    cases hm : weAreMatchAt (c :: rest) with
    | some m0 =>
      rw [hm] at h
      injection h with h
      subst h
      exact weAreMatchAt_shape hm
    | none =>
      rw [hm] at h
      exact ih h

/-- A We-are hit always produces a non-empty paragraph: the paragraph
contains the matched sentence, whose end characters are non-whitespace. -/
lemma weAreScanPages_text_ne (doc : List String) (ps : List Nat)
    (h : (weAreScanPages doc ps).location.isSome = true) :
    (weAreScanPages doc ps).text ≠ "" := by
  induction ps with
  | nil => simp [weAreScanPages] at h
  | cons p ps ih =>
    unfold weAreScanPages at h ⊢
    cases hm : weAreFirstMatch (extractPageTextP doc p).data with
    | none =>
      rw [hm] at h
      dsimp only at h ⊢
      exact ih h
    | some sent =>
      rw [hm] at h
      dsimp only at h ⊢
      obtain ⟨c₁, c₂, hh, hc₁, hl, hc₂⟩ := weAreFirstMatch_shape hm
      have hinf : sent <:+:
          (extractParagraphContaining (extractPageTextP doc p)
            (String.mk sent)).data :=
        extractParagraphContaining_infix _ _ hh hc₁ hl hc₂
      intro he
      rw [he] at hinf
      have : sent = [] := by simpa using hinf
      rw [this] at hh
      cases hh

/-! ## Lemmas about `findChapterEndPage` -/

lemma chapterScanGo_fst_ge {g : PageGetter} {N s : Nat} {title : String}
    {L : List Nat} (hL : ∀ p ∈ L, s + 1 ≤ p) (hs : s ≤ N) :
    s ≤ (chapterScanGo g N s title L).1 := by
  induction L with
  | nil =>
    simp only [chapterScanGo]
    omega
  | cons p ps ih =>
    simp only [chapterScanGo]
    cases g p with
    | error e =>
      dsimp only
      omega
    | ok t =>
      dsimp only
      split_ifs with hh
      · have := hL p (by simp)
        dsimp only
        omega
      · dsimp only
        exact ih fun q hq => hL q (by simp [hq])

lemma chapterScanGo_trace_sub {g : PageGetter} {N s : Nat} {title : String}
    {L : List Nat} : ∀ p ∈ (chapterScanGo g N s title L).2, p ∈ L := by
  induction L with
  | nil => simp [chapterScanGo]
  | cons p ps ih =>
    simp only [chapterScanGo]
    cases g p with
    | error e => simp
    | ok t =>
      dsimp only
      split_ifs with hh
      · simp
      · intro q hq
        rcases List.mem_cons.mp hq with h | h
        · simp [h]
        · simp [ih q h]

lemma chapterScanGo_all_quiet {g : PageGetter} {N s : Nat} {title : String}
    {L : List Nat}
    (h : ∀ p ∈ L, ∃ u, g p = Except.ok u ∧ pageHasNextHeading u title = false) :
    (chapterScanGo g N s title L).1 = min (s + 10) N := by
  induction L with
  | nil => simp [chapterScanGo]
  | cons p ps ih =>
    obtain ⟨u, hu, hq⟩ := h p (by simp)
    simp only [chapterScanGo, hu]
    rw [if_neg (by simp [hq])]
    exact ih fun q hmem => h q (by simp [hmem])

lemma chapterScanGo_found {g : PageGetter} {N s : Nat} {title : String}
    {l₁ l₂ : List Nat} {p : Nat} {t : String}
    (h1 : ∀ q ∈ l₁, ∃ u, g q = Except.ok u ∧ pageHasNextHeading u title = false)
    (hp : g p = Except.ok t) (ht : pageHasNextHeading t title = true) :
    (chapterScanGo g N s title (l₁ ++ p :: l₂)).1 = p - 1 := by
  induction l₁ with
  | nil =>
    simp only [List.nil_append, chapterScanGo, hp]
    rw [if_pos ht]
  | cons q l₁ ih =>
    obtain ⟨u, hu, hq⟩ := h1 q (by simp)
    simp only [List.cons_append, chapterScanGo, hu]
    rw [if_neg (by simp [hq])]
    exact ih fun r hmem => h1 r (by simp [hmem])

lemma chapterScanGo_err {g : PageGetter} {N s : Nat} {title : String}
    {l₁ l₂ : List Nat} {p : Nat}
    (h1 : ∀ q ∈ l₁, ∃ u, g q = Except.ok u ∧ pageHasNextHeading u title = false)
    (hp : g p = Except.error ()) :
    (chapterScanGo g N s title (l₁ ++ p :: l₂)).1 = min (s + 5) N := by
  induction l₁ with
  | nil =>
    simp only [List.nil_append, chapterScanGo, hp]
  | cons q l₁ ih =>
    obtain ⟨u, hu, hq⟩ := h1 q (by simp)
    simp only [List.cons_append, chapterScanGo, hu]
    rw [if_neg (by simp [hq])]
    exact ih fun r hmem => h1 r (by simp [hmem])

lemma mem_chapterScanPages {s N p : Nat} (h : p ∈ chapterScanPages s N) :
    s + 1 ≤ p ∧ p ≤ min (s + 20) N := by
  unfold chapterScanPages at h
  rw [List.mem_range'_1] at h
  omega

/-- Every keyword in the professional-parties table is well-formed. -/
lemma allProfessionalKeywords_good :
    allProfessionalKeywords.all (fun kw => kwGood kw.data) = true := by decide

/-! ## Lemmas about keyword matching (`extractProfessionalChunks`) -/

lemma matchPat_le {items : List PatItem} {s : List Char} {n : Nat}
    (h : matchPat items s = some n) : n ≤ s.length := by
  induction items generalizing s n with
  | nil =>
    simp only [matchPat, Option.some.injEq] at h
    omega
  | cons it rest ih =>
    cases it with
    | lit c =>
      rcases s with _ | ⟨d, s⟩
      · cases h
      · simp only [matchPat] at h
        split_ifs at h
        rcases Option.map_eq_some'.mp h with ⟨m, hm, rfl⟩
        have := ih hm
        simp only [List.length_cons]
        omega
    | cls cs =>
      rcases s with _ | ⟨d, s⟩
      · cases h
      · simp only [matchPat] at h
        split_ifs at h
        rcases Option.map_eq_some'.mp h with ⟨m, hm, rfl⟩
        have := ih hm
        simp only [List.length_cons]
        omega
    | wsPlus =>
      simp only [matchPat] at h
      split_ifs at h
      rcases Option.map_eq_some'.mp h with ⟨m, hm, rfl⟩
      have h1 := ih hm
      have h2 : (List.takeWhile jsWs s).length ≤ s.length :=
        (List.takeWhile_sublist jsWs).length_le
      simp only [List.length_drop] at h1
      omega

lemma nonws_of_ciEq_nonws {c d : Char} (h : ciEq c d = true)
    (hc : jsWs c = false) : jsWs d = false := by
  have : lowerC d = lowerC c := (beq_iff_eq.mp h).symm
  exact jsWs_eq_of_lowerC_eq this hc

lemma matchPat_head {items : List PatItem} {s : List Char} {n : Nat}
    (hg : headSolid items = true) (h : matchPat items s = some n) :
    ∃ c s', s = c :: s' ∧ jsWs c = false ∧ 1 ≤ n := by
  cases items with
  | nil => cases hg
  | cons it rest =>
    cases it with
    | lit c =>
      rcases s with _ | ⟨d, s⟩
      · cases h
      · simp only [matchPat] at h
        by_cases hci : ciEq c d = true
        · rw [if_pos hci] at h
          rcases Option.map_eq_some'.mp h with ⟨m, hm, rfl⟩
          have hc : jsWs c = false := by
            simpa [headSolid, itemSolid] using hg
          exact ⟨d, s, rfl, nonws_of_ciEq_nonws hci hc, by omega⟩
        · rw [if_neg hci] at h; cases h
    | cls cs =>
      rcases s with _ | ⟨d, s⟩
      · cases h
      · simp only [matchPat] at h
        by_cases hci : cs.any (fun c => ciEq c d) = true
        · rw [if_pos hci] at h
          rcases Option.map_eq_some'.mp h with ⟨m, hm, rfl⟩
          rcases List.any_eq_true.mp hci with ⟨c, hcmem, hcd⟩
          have hc : jsWs c = false := by
            simp only [headSolid, itemSolid, Bool.and_eq_true, Bool.not_eq_true',
              List.all_eq_true] at hg
            simpa using hg.2 c hcmem
          exact ⟨d, s, rfl, nonws_of_ciEq_nonws hcd hc, by omega⟩
        · rw [if_neg hci] at h; cases h
    | wsPlus => simp [headSolid, itemSolid] at hg

lemma patGood_tail {it : PatItem} {r : PatItem} {rs : List PatItem}
    (h : patGood (it :: r :: rs) = true) :
    itemFine it = true ∧ patGood (r :: rs) = true := by
  simpa [patGood, Bool.and_eq_true] using h

lemma matchPat_last {items : List PatItem} {s : List Char} {n : Nat}
    (hg : patGood items = true) (h : matchPat items s = some n) :
    1 ≤ n ∧ ∃ c, ((s.take n).getLast? = some c ∧ jsWs c = false) := by
  induction items generalizing s n with
  | nil => cases hg
  | cons it rest ih =>
    cases rest with
    | nil =>
      cases it with
      | lit c =>
        rcases s with _ | ⟨d, s⟩
        · cases h
        · simp only [matchPat] at h
          by_cases hci : ciEq c d = true
          · rw [if_pos hci] at h
            rcases Option.map_eq_some'.mp h with ⟨m, hm, rfl⟩
            simp only [matchPat, Option.some.injEq] at hm
            subst hm
            have hc : jsWs c = false := by simpa [patGood, itemSolid] using hg
            exact ⟨by omega, d, by simp, nonws_of_ciEq_nonws hci hc⟩
          · rw [if_neg hci] at h; cases h
      | cls cs =>
        rcases s with _ | ⟨d, s⟩
        · cases h
        · simp only [matchPat] at h
          by_cases hci : cs.any (fun c => ciEq c d) = true
          · rw [if_pos hci] at h
            rcases Option.map_eq_some'.mp h with ⟨m, hm, rfl⟩
            simp only [matchPat, Option.some.injEq] at hm
            subst hm
            rcases List.any_eq_true.mp hci with ⟨c, hcmem, hcd⟩
            have hc : jsWs c = false := by
              simp only [patGood, itemSolid, Bool.and_eq_true,
                Bool.not_eq_true', List.all_eq_true] at hg
              simpa using hg.2 c hcmem
            exact ⟨by omega, d, by simp, nonws_of_ciEq_nonws hcd hc⟩
          · rw [if_neg hci] at h; cases h
      | wsPlus => simp [patGood, itemSolid] at hg
    | cons r rs =>
      obtain ⟨hfine, hrest⟩ := patGood_tail hg
      cases it with
      | lit c =>
        rcases s with _ | ⟨d, s⟩
        · cases h
        · simp only [matchPat] at h
          split_ifs at h
          rcases Option.map_eq_some'.mp h with ⟨m, hm, rfl⟩
          obtain ⟨hm1, c', hc'last, hc'ws⟩ := ih hrest hm
          refine ⟨by omega, c', ?_, hc'ws⟩
          have hmle := matchPat_le hm
          rcases htk : s.take m with _ | ⟨x, xs⟩
          · exfalso
            have : (s.take m).length = 0 := by rw [htk]; rfl
            rw [List.length_take] at this
            omega
          · rw [List.take_succ_cons, htk, List.getLast?_cons_cons, ← htk]
            exact hc'last
      | cls cs =>
        rcases s with _ | ⟨d, s⟩
        · cases h
        · simp only [matchPat] at h
          split_ifs at h
          rcases Option.map_eq_some'.mp h with ⟨m, hm, rfl⟩
          obtain ⟨hm1, c', hc'last, hc'ws⟩ := ih hrest hm
          refine ⟨by omega, c', ?_, hc'ws⟩
          have hmle := matchPat_le hm
          rcases htk : s.take m with _ | ⟨x, xs⟩
          · exfalso
            have : (s.take m).length = 0 := by rw [htk]; rfl
            rw [List.length_take] at this
            omega
          · rw [List.take_succ_cons, htk, List.getLast?_cons_cons, ← htk]
            exact hc'last
      | wsPlus =>
        simp only [matchPat] at h
        split_ifs at h with hk
        rcases Option.map_eq_some'.mp h with ⟨m, hm, rfl⟩
        obtain ⟨hm1, c', hc'last, hc'ws⟩ := ih hrest hm
        refine ⟨by omega, c', ?_, hc'ws⟩
        have hmle := matchPat_le hm
        rw [Nat.add_comm m, List.take_add, List.getLast?_append]
        have hne : ((s.drop (List.takeWhile jsWs s).length).take m).getLast? =
            some c' := hc'last
        rw [hne]
        rfl

lemma flexScan_spec {items : List PatItem} {s : List Char} {p i L : Nat}
    (h : flexScan items p s = some (i, L)) :
    ∃ j, j ≤ s.length ∧ i = p + j ∧ matchPat items (s.drop j) = some L := by
  induction s generalizing p with
  | nil =>
    simp only [flexScan] at h
    rcases Option.map_eq_some'.mp h with ⟨n, hn, he⟩
    injection he with he1 he2
    subst he1
    subst he2
    exact ⟨0, by simp, by omega, hn⟩
  | cons c rest ih =>
    simp only [flexScan] at h
    cases hm : matchPat items (c :: rest) with
    | some n =>
      rw [hm] at h
      injection h with he
      injection he with he1 he2
      subst he1
      subst he2
      exact ⟨0, by simp, by omega, hm⟩
    | none =>
      rw [hm] at h
      obtain ⟨j, hj, hi, hmp⟩ := ih h
      exact ⟨j + 1, by simp only [List.length_cons]; omega, by omega, hmp⟩

/-- Facts about any keyword match found by `extractProfessionalChunks` for a
well-formed keyword: the match lies inside the text, is non-empty, and its
first and last characters are non-whitespace. -/
lemma matchKeyword_spec {text kw : List Char} {i L : Nat}
    (hkG : kwGood kw = true) (h : matchKeyword text kw = some (i, L)) :
    i + L ≤ text.length ∧ 1 ≤ L ∧
    (∃ c, ((text.drop i).take L).head? = some c ∧ jsWs c = false) ∧
    (∃ c, ((text.drop i).take L).getLast? = some c ∧ jsWs c = false) := by
  unfold matchKeyword at h
  unfold kwGood at hkG
  by_cases hsp : kw.contains ' ' = true
  · rw [if_pos hsp] at h
    rw [if_pos hsp, Bool.and_eq_true] at hkG
    obtain ⟨hpg, hhs⟩ := hkG
    unfold flexExec at h
    obtain ⟨j, hj, hi, hmp⟩ := flexScan_spec h
    have hii : i = j := by omega
    subst hii
    have hLle := matchPat_le hmp
    rw [List.length_drop] at hLle
    obtain ⟨c, s', hcons, hcws, hL1⟩ := matchPat_head hhs hmp
    obtain ⟨-, c', hlast, hlws⟩ := matchPat_last hpg hmp
    refine ⟨by omega, hL1, ⟨c, ?_, hcws⟩, ⟨c', hlast, hlws⟩⟩
    rw [hcons]
    rcases L with _ | L
    · omega
    · simp [List.take_succ_cons]
  · rw [if_neg hsp] at h
    rw [if_neg hsp] at hkG
    rcases Option.map_eq_some'.mp h with ⟨i0, hidx, he⟩
    injection he with he1 he2
    rw [he1] at hidx
    subst he2
    obtain ⟨hpre, hlen⟩ := listIndexOf_spec hidx
    rw [List.length_map] at hlen
    have hlen' : i + kw.length ≤ text.length := by
      simpa using hlen
    rcases hkw : kw.head? with _ | ch
    · rw [hkw] at hkG; cases hkG
    rcases hkl : kw.getLast? with _ | cl
    · rw [hkw, hkl] at hkG; cases hkG
    rw [hkw, hkl] at hkG
    simp only [Bool.and_eq_true, Bool.not_eq_true'] at hkG
    obtain ⟨hchws, hclws⟩ := hkG
    have hkne : kw ≠ [] := by
      intro he
      rw [he] at hkw
      cases hkw
    have hk1 : 1 ≤ kw.length := by
      rcases kw with _ | _
      · exact absurd rfl hkne
      · simp
    -- the matched region of the text, lower-cased, equals the lower-cased keyword
    have hmap : ((text.drop i).take kw.length).map lowerC = kw.map lowerC := by
      have h1 : (kw.map lowerC) = ((text.map lowerC).drop i).take (kw.map lowerC).length :=
        List.prefix_iff_eq_take.mp hpre
      rw [List.length_map] at h1
      rw [← List.map_drop, ← List.map_take] at h1
      exact h1.symm
    have hlenm : ((text.drop i).take kw.length).length = kw.length := by
      rw [List.length_take, List.length_drop]
      omega
    refine ⟨hlen', hk1, ?_, ?_⟩
    · have hh := congrArg List.head? hmap
      rw [List.head?_map, List.head?_map, hkw] at hh
      rcases hh' : ((text.drop i).take kw.length).head? with _ | d
      · rw [hh'] at hh
        cases hh
      · rw [hh'] at hh
        simp only [Option.map_some'] at hh
        injection hh with hh
        exact ⟨d, rfl, jsWs_eq_of_lowerC_eq hh hchws⟩
    · have hh := congrArg List.getLast? hmap
      rw [List.getLast?_map, List.getLast?_map, hkl] at hh
      rcases hh' : ((text.drop i).take kw.length).getLast? with _ | d
      · rw [hh'] at hh
        cases hh
      · rw [hh'] at hh
        simp only [Option.map_some'] at hh
        injection hh with hh
        exact ⟨d, rfl, jsWs_eq_of_lowerC_eq hh hclws⟩

/-! ## Lemmas about the Directors tie-break -/

lemma selectedOccurrence_cases (l : List Occurrence) (hne : l ≠ []) :
    (10 < l.length → selectedOccurrence l = l.get? 3) ∧
    (2 < l.length → l.length ≤ 10 → selectedOccurrence l = l.get? 2) ∧
    (l.length ≤ 2 → selectedOccurrence l = l.getLast?) := by
  unfold selectedOccurrence
  rw [if_neg (by simp [List.isEmpty_iff, hne])]
  dsimp only
  refine ⟨fun h10 => ?_, fun h2 h10 => ?_, fun h2 => ?_⟩
  · rw [if_pos h10, if_pos (by omega)]
  · rw [if_neg (show ¬10 < l.length by omega),
      if_pos (show 2 < l.length from h2)]
  · rw [if_neg (show ¬10 < l.length by omega),
      if_neg (show ¬2 < l.length by omega)]

lemma findDirectorsSection_eq (doc : List String) (ctype : String) :
    findDirectorsSection doc ctype =
      (selectedOccurrence (sortByPage (directorsOccurrences doc ctype))).map
        (fun o => SectionInfo.mk o.page
          (findChapterEndPage doc o.page o.keyword) o.keyword) := by
  unfold findDirectorsSection findDirectorsSectionT findChapterEndPage
  cases hsel : selectedOccurrence (sortByPage (directorsOccurrences doc ctype)) with
  | none => simp [hsel]
  | some o => simp [hsel]

/-! ## Helpers for occurrence membership and traces -/

lemma mem_insertByPage {o x : Occurrence} {l : List Occurrence}
    (h : o ∈ insertByPage x l) : o = x ∨ o ∈ l := by
  induction l with
  | nil => simpa [insertByPage] using h
  | cons y ys ih =>
    unfold insertByPage at h
    split_ifs at h with hy
    · rcases List.mem_cons.mp h with h | h
      · exact Or.inr (by simp [h])
      · rcases ih h with h | h
        · exact Or.inl h
        · exact Or.inr (by simp [h])
    · rcases List.mem_cons.mp h with h | h
      · exact Or.inl h
      · exact Or.inr h

lemma mem_sortByPage {o : Occurrence} {l : List Occurrence}
    (h : o ∈ sortByPage l) : o ∈ l := by
  induction l with
  | nil => simp [sortByPage] at h
  | cons x xs ih =>
    unfold sortByPage at h
    rcases mem_insertByPage h with h | h
    · simp [h]
    · simp [ih h]

lemma selectedOccurrence_mem {l : List Occurrence} {o : Occurrence}
    (h : selectedOccurrence l = some o) : o ∈ l := by
  unfold selectedOccurrence at h
  dsimp only at h
  split_ifs at h
  all_goals first
    | cases h
    | exact List.get?_mem h
    | exact List.mem_of_mem_getLast? h

lemma collectOccurrences_keyword_mem {doc : List String} {kws : List String}
    {o : Occurrence} (h : o ∈ collectOccurrences doc kws) : o.keyword ∈ kws := by
  unfold collectOccurrences at h
  rcases List.mem_flatMap.mp h with ⟨p, -, hm⟩
  rcases List.mem_map.mp hm with ⟨kw, hfil, he⟩
  rw [← he]
  exact (List.mem_filter.mp hfil).1

lemma findDirectorsSectionT_scan_first (doc : List String) (ctype : String) :
    List.range' 1 doc.length <+: (findDirectorsSectionT doc ctype).2 := by
  unfold findDirectorsSectionT
  cases hsel : selectedOccurrence (sortByPage (directorsOccurrences doc ctype)) with
  | none =>
    dsimp only
    exact List.prefix_append _ _
  | some o =>
    dsimp only
    rw [List.append_assoc]
    exact List.prefix_append _ _

/-! ## Claim theorems -/

/-- C1: in every run of the Directors-chapter search whose (page-sorted)
occurrence list is non-empty, the tie-break selects 0-based index 3 when more
than 10 occurrences exist, index 2 when `2 < n ≤ 10`, and the last occurrence
when `n ≤ 2`; the selected occurrence becomes the returned chapter start and
title. -/
theorem C1_directors_tie_break (doc : List String) (ctype : String)
    (hne : sortByPage (directorsOccurrences doc ctype) ≠ []) :
    ((10 < (sortByPage (directorsOccurrences doc ctype)).length →
        selectedOccurrence (sortByPage (directorsOccurrences doc ctype)) =
          (sortByPage (directorsOccurrences doc ctype)).get? 3) ∧
      (2 < (sortByPage (directorsOccurrences doc ctype)).length →
        (sortByPage (directorsOccurrences doc ctype)).length ≤ 10 →
        selectedOccurrence (sortByPage (directorsOccurrences doc ctype)) =
          (sortByPage (directorsOccurrences doc ctype)).get? 2) ∧
      ((sortByPage (directorsOccurrences doc ctype)).length ≤ 2 →
        selectedOccurrence (sortByPage (directorsOccurrences doc ctype)) =
          (sortByPage (directorsOccurrences doc ctype)).getLast?)) ∧
    ∀ o, selectedOccurrence (sortByPage (directorsOccurrences doc ctype)) = some o →
      findDirectorsSection doc ctype =
        some (SectionInfo.mk o.page
          (findChapterEndPage doc o.page o.keyword) o.keyword) := by
  refine ⟨selectedOccurrence_cases _ hne, fun o ho => ?_⟩
  rw [findDirectorsSection_eq, ho]
  rfl

/-- Witness for C1 on a concrete three-page document with two occurrences
(the degraded last-occurrence branch). -/
theorem C1_directors_tie_break_witness :
    (sortByPage (directorsOccurrences ["Directors and Parties Involved", "x",
        "Directors and Parties Involved"] "cayman") ≠ []) ∧
    selectedOccurrence (sortByPage (directorsOccurrences
        ["Directors and Parties Involved", "x",
         "Directors and Parties Involved"] "cayman")) =
      (sortByPage (directorsOccurrences ["Directors and Parties Involved", "x",
        "Directors and Parties Involved"] "cayman")).getLast? ∧
    findDirectorsSection ["Directors and Parties Involved", "x",
        "Directors and Parties Involved"] "cayman" =
      some (SectionInfo.mk 3
        (findChapterEndPage ["Directors and Parties Involved", "x",
          "Directors and Parties Involved"] 3 "Directors and Parties Involved")
        "Directors and Parties Involved") := by
  refine ⟨by decide, ?_, ?_⟩
  · exact (C1_directors_tie_break _ _ (by decide)).1.2.2 (by decide)
  · exact (C1_directors_tie_break _ _ (by decide)).2
      (Occurrence.mk 3 "Directors and Parties Involved") (by decide)

/-- C2: for every page getter, document length `N ≥ startPage`, start page and
title, `findChapterEndPage` (1) never returns less than the start page,
(2) examines only pages in `[startPage + 1, min(startPage + 20, N)]`,
(3) returns the page immediately before the first scanned page whose text has
an all-caps heading match differing from the title, (4) returns
`min(startPage + 10, N)` when no scanned page has such a heading, and
(5) returns `min(startPage + 5, N)` when the scan fails at some page before
any heading was found. -/
theorem C2_chapter_end_page (g : PageGetter) (N s : Nat) (title : String)
    (hs : s ≤ N) :
    s ≤ (findChapterEndPageCore g N s title).1 ∧
    (∀ p ∈ (findChapterEndPageCore g N s title).2,
        s + 1 ≤ p ∧ p ≤ min (s + 20) N) ∧
    (∀ l₁ p l₂ t, chapterScanPages s N = l₁ ++ p :: l₂ →
        (∀ q ∈ l₁, ∃ u, g q = Except.ok u ∧ pageHasNextHeading u title = false) →
        g p = Except.ok t → pageHasNextHeading t title = true →
        (findChapterEndPageCore g N s title).1 = p - 1) ∧
    ((∀ q ∈ chapterScanPages s N,
        ∃ u, g q = Except.ok u ∧ pageHasNextHeading u title = false) →
        (findChapterEndPageCore g N s title).1 = min (s + 10) N) ∧
    (∀ l₁ p l₂, chapterScanPages s N = l₁ ++ p :: l₂ →
        (∀ q ∈ l₁, ∃ u, g q = Except.ok u ∧ pageHasNextHeading u title = false) →
        g p = Except.error () →
        (findChapterEndPageCore g N s title).1 = min (s + 5) N) := by
  refine ⟨?_, ?_, ?_, ?_, ?_⟩
  · exact chapterScanGo_fst_ge (fun p hp => (mem_chapterScanPages hp).1) hs
  · exact fun p hp => mem_chapterScanPages (chapterScanGo_trace_sub p hp)
  · intro l₁ p l₂ t hsplit h1 hp ht
    unfold findChapterEndPageCore
    rw [hsplit]
    exact chapterScanGo_found h1 hp ht
  · intro hall
    exact chapterScanGo_all_quiet hall
  · intro l₁ p l₂ hsplit h1 hp
    unfold findChapterEndPageCore
    rw [hsplit]
    exact chapterScanGo_err h1 hp

/-- Witness for C2 at a concrete getter, document length and start page. -/
theorem C2_chapter_end_page_witness :
    (2 : Nat) ≤ 5 ∧
    2 ≤ (findChapterEndPageCore (fun _ => Except.ok "") 5 2 "T").1 :=
  ⟨by decide, (C2_chapter_end_page (fun _ => Except.ok "") 5 2 "T" (by decide)).1⟩

/-- C3: for every chapter text and professional keyword from the table, a
match at index `i` with length `L` yields exactly the trimmed
`substring(max(0, i - 50), min(length, i + L + 500))` window, the window
never exceeds `L + 550` characters, and it contains the matched substring in
full. -/
theorem C3_chunk_window (text kw : String) (i L : Nat)
    (hkw : kw ∈ allProfessionalKeywords)
    (hm : matchKeyword text.data kw.data = some (i, L)) :
    chunkWindow text i L = String.mk (jsTrim (jsSubstring text.data (i - 50)
      (min text.data.length (i + L + 500)))) ∧
    (chunkWindow text i L).length ≤ L + 550 ∧
    (text.data.drop i).take L <:+: (chunkWindow text i L).data ∧
    (∀ kws : List String, kw ∈ kws →
      Chunk.mk kw (chunkWindow text i L) ∈ chunksFor text kws) := by
  have hkG : kwGood kw.data = true :=
    List.all_eq_true.mp allProfessionalKeywords_good kw hkw
  obtain ⟨hiL, hL1, ⟨ch, hch, hchws⟩, ⟨cl, hcl, hclws⟩⟩ := matchKeyword_spec hkG hm
  refine ⟨rfl, ?_, ?_, ?_⟩
  · show (jsTrim (jsSubstring text.data (i - 50)
      (min text.data.length (i + L + 500)))).length ≤ L + 550
    calc (jsTrim (jsSubstring text.data (i - 50)
          (min text.data.length (i + L + 500)))).length
        ≤ (jsSubstring text.data (i - 50)
            (min text.data.length (i + L + 500))).length := jsTrim_length_le _
      _ ≤ L + 550 := by
          rw [jsSubstring_length_eq]
          simp only [Nat.min_def, Nat.max_def]
          split_ifs <;> omega
  · have hab : i - 50 ≤ min text.data.length (i + L + 500) :=
      Nat.le_min.mpr ⟨by omega, by omega⟩
    have hble : min text.data.length (i + L + 500) ≤ text.data.length :=
      Nat.min_le_left _ _
    have hbge : i + L ≤ min text.data.length (i + L + 500) :=
      Nat.le_min.mpr ⟨hiL, by omega⟩
    have hmlen : ((text.data.drop i).take L).length = L := by
      rw [List.length_take, List.length_drop]
      omega
    show (text.data.drop i).take L <:+:
      jsTrim (jsSubstring text.data (i - 50)
        (min text.data.length (i + L + 500)))
    rw [jsSubstring_of_le hab hble]
    obtain ⟨pre, post, hdec⟩ :=
      slice_decompose (t := text.data) (s := (text.data.drop i).take L)
        (a := i - 50) (b := min text.data.length (i + L + 500))
        (by omega) (by rw [hmlen]; exact hbge) hble
        ⟨(text.data.drop i).drop L, List.take_append_drop _ _⟩
    rw [hdec]
    exact jsTrim_keeps_mid pre post hch hchws hcl hclws
  · intro kws hmem
    unfold chunksFor
    exact List.mem_filterMap.mpr ⟨kw, hmem, by rw [hm]; rfl⟩

/-- Witness for C3 on a concrete text and the keyword `Sole Sponsor`. -/
theorem C3_chunk_window_witness :
    (("Sole Sponsor" : String) ∈ allProfessionalKeywords ∧
      matchKeyword "The Sole Sponsor is X.".data "Sole Sponsor".data =
        some (4, 12)) ∧
    (chunkWindow "The Sole Sponsor is X." 4 12).length ≤ 12 + 550 ∧
    ("The Sole Sponsor is X.".data.drop 4).take 12 <:+:
      (chunkWindow "The Sole Sponsor is X." 4 12).data := by
  refine ⟨⟨by decide, by decide⟩, ?_, ?_⟩
  · exact (C3_chunk_window "The Sole Sponsor is X." "Sole Sponsor" 4 12
      (by decide) (by decide)).2.1
  · exact (C3_chunk_window "The Sole Sponsor is X." "Sole Sponsor" 4 12
      (by decide) (by decide)).2.2.1

/-- C4 counterexample: the paragraph-mode extraction does not always contain
the anchor sentence verbatim — for page text `" x"` and anchor `" x"` the
trim step cuts the sentence's leading space and returns `"x"`. -/
theorem C4_counterexample :
    ¬ (" x".data <:+: (extractParagraphContaining " x" " x").data) := by decide

/-- C4 (amended): for every page text and every anchor sentence whose first
and last characters are non-whitespace (as every identity-statement regex
match is), the paragraph-mode extraction returns a string containing the full
anchor sentence verbatim. -/
theorem C4_paragraph_contains (pageText sentence : String) (c₁ c₂ : Char)
    (hh : sentence.data.head? = some c₁) (hc₁ : jsWs c₁ = false)
    (hl : sentence.data.getLast? = some c₂) (hc₂ : jsWs c₂ = false) :
    sentence.data <:+: (extractParagraphContaining pageText sentence).data :=
  extractParagraphContaining_infix pageText sentence hh hc₁ hl hc₂

/-- Witness for C4 on a concrete page and sentence. -/
theorem C4_paragraph_contains_witness :
    ("We are good.".data.head? = some 'W' ∧ jsWs 'W' = false ∧
      "We are good.".data.getLast? = some '.' ∧ jsWs '.' = false) ∧
    "We are good.".data <:+:
      (extractParagraphContaining "intro\n\nWe are good. More\n\ntail"
        "We are good.").data :=
  ⟨⟨by decide, by decide, by decide, by decide⟩,
    C4_paragraph_contains _ _ 'W' '.' (by decide) (by decide) (by decide)
      (by decide)⟩

/-- C5: chapter and keyword misses are soft.  A missing Directors chapter
yields empty professional chunk lists, a missing Summary chapter makes the
summary text equal the extracted identity-statement paragraph, and when the
identity statement was found that substituted summary is non-empty; the
bundle is produced in all cases (the orchestrator is a total function). -/
theorem C5_soft_failures (doc : List String) :
    (findDirectorsSection doc (detectCompanyType (extractPageTextP doc 1)) = none →
      (extractAllRequiredSections doc).professionalChunks =
        ProfChunks.mk [] [] [] [] []) ∧
    (findSummarySection doc = none →
      (extractAllRequiredSections doc).summaryText =
        (extractAllRequiredSections doc).weAreText) ∧
    (findSummarySection doc = none →
      (extractAllRequiredSections doc).weAreLocation.isSome = true →
      (extractAllRequiredSections doc).summaryText ≠ "") := by
  refine ⟨fun hd => ?_, fun hs => ?_, fun hs hw => ?_⟩
  · unfold extractAllRequiredSections
    dsimp only
    rw [hd]
    dsimp only
    decide
  · unfold extractAllRequiredSections
    dsimp only
    rw [hs]
  · unfold extractAllRequiredSections at hw ⊢
    dsimp only at hw ⊢
    rw [hs]
    exact weAreScanPages_text_ne doc (List.range' 1 doc.length) hw

/-- Witness for C5 on a one-page document with an identity statement but no
Summary keyword and no Directors chapter. -/
theorem C5_soft_failures_witness :
    (findDirectorsSection ["We are ok. zz"]
        (detectCompanyType (extractPageTextP ["We are ok. zz"] 1)) = none ∧
      findSummarySection ["We are ok. zz"] = none ∧
      (extractAllRequiredSections ["We are ok. zz"]).weAreLocation.isSome = true) ∧
    (extractAllRequiredSections ["We are ok. zz"]).professionalChunks =
      ProfChunks.mk [] [] [] [] [] ∧
    (extractAllRequiredSections ["We are ok. zz"]).summaryText =
      (extractAllRequiredSections ["We are ok. zz"]).weAreText ∧
    (extractAllRequiredSections ["We are ok. zz"]).summaryText ≠ "" := by
  refine ⟨⟨by decide, by decide, by decide⟩, ?_, ?_, ?_⟩
  · exact (C5_soft_failures _).1 (by decide)
  · exact (C5_soft_failures _).2.1 (by decide)
  · exact (C5_soft_failures _).2.2 (by decide) (by decide)

/-- C6 counterexample: the Summary search decides before the whole document
is scanned — on a 23-page document with `Summary` on page 1 it returns a
section although page 22 is never read. -/
theorem C6_counterexample :
    (findSummarySectionT ("Summary" :: List.replicate 22 "x")).1.isSome = true ∧
    22 ∉ (findSummarySectionT ("Summary" :: List.replicate 22 "x")).2 := by
  decide

/-- C6 (amended): the Directors search does collect all occurrences across
the whole document before deciding — its trace reads pages `1..numPages`
first, and the returned section is a function of the complete occurrence
list; the Summary search instead returns at the first matching page. -/
theorem C6_directors_global_scan (doc : List String) (ctype : String) :
    List.range' 1 doc.length <+: (findDirectorsSectionT doc ctype).2 ∧
    findDirectorsSection doc ctype =
      (selectedOccurrence (sortByPage (directorsOccurrences doc ctype))).map
        (fun o => SectionInfo.mk o.page
          (findChapterEndPage doc o.page o.keyword) o.keyword) :=
  ⟨findDirectorsSectionT_scan_first doc ctype, findDirectorsSection_eq doc ctype⟩

/-- C7 counterexample: for a cayman-classified document whose cayman keyword
family has zero occurrences, the search gives up without re-scanning even
though the alternate (non-cayman) family has occurrences. -/
theorem C7_counterexample :
    detectCompanyType (extractPageTextP
      ["incorporated in the Cayman Islands",
       "DIRECTORS, SUPERVISORS AND PARTIES INVOLVED"] 1) = "cayman" ∧
    collectOccurrences
      ["incorporated in the Cayman Islands",
       "DIRECTORS, SUPERVISORS AND PARTIES INVOLVED"]
      nonCaymanDirKeywords ≠ [] ∧
    findDirectorsSection
      ["incorporated in the Cayman Islands",
       "DIRECTORS, SUPERVISORS AND PARTIES INVOLVED"] "cayman" = none := by
  decide

/-- C7 (amended): only when the classification is not `cayman` and its
keyword family has zero occurrences does the search re-scan with the cayman
family before giving up; when the fallback succeeds, the returned section's
title is a cayman-family keyword (the result's only indication that the
fallback family was used). -/
theorem C7_fallback_non_cayman (doc : List String) (ctype : String)
    (hc : ctype ≠ "cayman")
    (h0 : collectOccurrences doc (directorsKeywords ctype) = []) :
    findDirectorsSection doc ctype =
      (selectedOccurrence (sortByPage
          (collectOccurrences doc caymanDirKeywords))).map
        (fun o => SectionInfo.mk o.page
          (findChapterEndPage doc o.page o.keyword) o.keyword) ∧
    ∀ s, findDirectorsSection doc ctype = some s →
      s.title ∈ caymanDirKeywords := by
  have hocc : directorsOccurrences doc ctype =
      collectOccurrences doc caymanDirKeywords := by
    unfold directorsOccurrences
    rw [if_pos ⟨hc, by rw [h0]; rfl⟩]
  constructor
  · rw [findDirectorsSection_eq, hocc]
  · intro s hs
    rw [findDirectorsSection_eq, hocc] at hs
    rcases Option.map_eq_some'.mp hs with ⟨o, ho, he⟩
    have hmem : o.keyword ∈ caymanDirKeywords :=
      collectOccurrences_keyword_mem (mem_sortByPage (selectedOccurrence_mem ho))
    rw [← he]
    exact hmem

/-- Witness for C7 on a two-page non-cayman document where only the cayman
family matches. -/
theorem C7_fallback_non_cayman_witness :
    (("non-cayman" : String) ≠ "cayman" ∧
      collectOccurrences ["a", "Directors and Parties Involved"]
        (directorsKeywords "non-cayman") = []) ∧
    findDirectorsSection ["a", "Directors and Parties Involved"] "non-cayman" =
      (selectedOccurrence (sortByPage
          (collectOccurrences ["a", "Directors and Parties Involved"]
            caymanDirKeywords))).map
        (fun o => SectionInfo.mk o.page
          (findChapterEndPage ["a", "Directors and Parties Involved"]
            o.page o.keyword) o.keyword) := by
  refine ⟨⟨by decide, by decide⟩, ?_⟩
  exact (C7_fallback_non_cayman _ _ (by decide) (by decide)).1

/-- C8 counterexample: a failing page access is not turned into an error
that propagates — `extractPageText` catches it and returns the ordinary
value `''` (and an out-of-range page in the pure model likewise yields
`''`), so no `PageAccessError` ever reaches the orchestrator. -/
theorem C8_counterexample :
    extractPageTextC (fun _ => Except.error ()) [] 3 = ("", [], 1) ∧
    extractPageTextP ["a"] 7 = "" := by decide

/-- C8 (amended): when the accessor fails on an uncached page,
`extractPageText` swallows the error and returns the empty string, caching
nothing; an out-of-range page number in a run likewise yields `''` rather
than a propagated error. -/
theorem C8_page_access_caught (acc : PageGetter) (cache : List (Nat × String))
    (n : Nat) (hmiss : cache.lookup n = none)
    (hfail : acc n = Except.error ()) :
    extractPageTextC acc cache n = ("", cache, 1) ∧
    ∀ (doc : List String) (m : Nat), doc.length < m →
      extractPageTextP doc m = "" := by
  constructor
  · unfold extractPageTextC
    rw [hmiss, hfail]
  · intro doc m hm
    unfold extractPageTextP
    rw [List.get?_eq_none.mpr (by omega)]
    rfl

/-- Witness for C8 with a concrete always-failing accessor. -/
theorem C8_page_access_caught_witness :
    (([] : List (Nat × String)).lookup 3 = none ∧
      (fun _ => Except.error () : PageGetter) 3 = Except.error ()) ∧
    extractPageTextC (fun _ => Except.error ()) [] 3 = ("", [], 1) ∧
    ∀ (doc : List String) (m : Nat), doc.length < m →
      extractPageTextP doc m = "" := by
  refine ⟨⟨by decide, rfl⟩, ?_⟩
  exact C8_page_access_caught (fun _ => Except.error ()) [] 3 (by decide) rfl

/-- C9 counterexample: when no registration-type pattern matches the first
page, `detectCompanyType` returns `'non-cayman'`, not the claimed explicit
`'unknown'` classification. -/
theorem C9_counterexample :
    tokensScan ["cayman".data, "island".data] "hello".data = false ∧
    includesS "hello" "开曼群岛" = false ∧
    tokensScan ["incorporated".data, "in".data, "the".data, "cayman".data,
      "island".data] "hello".data = false ∧
    detectCompanyType "hello" = "non-cayman" ∧
    detectCompanyType "hello" ≠ "unknown" := by decide

/-- C9 (amended): for every first-page text matching none of the
registration-type patterns, the detection returns the explicit classification
`'non-cayman'` (never `'unknown'`, which the code only produces in an
unreachable internal error handler). -/
theorem C9_no_match_non_cayman (t : String)
    (h1 : tokensScan ["cayman".data, "island".data] t.data = false)
    (h2 : includesS t "开曼群岛" = false)
    (h3 : tokensScan ["incorporated".data, "in".data, "the".data,
      "cayman".data, "island".data] t.data = false) :
    detectCompanyType t = "non-cayman" ∧ detectCompanyType t ≠ "unknown" := by
  unfold detectCompanyType
  rw [if_neg (by rw [h1]; exact Bool.false_ne_true),
    if_neg (by rw [h2]; exact Bool.false_ne_true),
    if_neg (by rw [h3]; exact Bool.false_ne_true)]
  exact ⟨rfl, by decide⟩

/-- Witness for C9 on a concrete non-matching first page. -/
theorem C9_no_match_non_cayman_witness :
    (tokensScan ["cayman".data, "island".data] "a PRC company".data = false ∧
      includesS "a PRC company" "开曼群岛" = false ∧
      tokensScan ["incorporated".data, "in".data, "the".data, "cayman".data,
        "island".data] "a PRC company".data = false) ∧
    detectCompanyType "a PRC company" = "non-cayman" ∧
    detectCompanyType "a PRC company" ≠ "unknown" := by
  refine ⟨⟨by decide, by decide, by decide⟩, ?_⟩
  exact C9_no_match_non_cayman "a PRC company" (by decide) (by decide)
    (by decide)

/-- C10 counterexample: when the accessor fails, the failure is not cached,
so two calls for the same page invoke the accessor twice — refuting the
claim that the accessor is always invoked only once per page. -/
theorem C10_counterexample :
    (extractPageTextC (fun _ => Except.error ()) [] 1).2.2 +
      (extractPageTextC (fun _ => Except.error ())
        (extractPageTextC (fun _ => Except.error ()) [] 1).2.1 1).2.2 = 2 := by
  decide

/-- C10 (amended): within one run two calls of `extractPageText` for the same
page always return identical strings, and when the accessor succeeds on that
page it is invoked exactly once across both calls (the second call is served
from the cache); on failure nothing is cached and the accessor is invoked
again. -/
theorem C10_cache_idempotent (acc : PageGetter) (n : Nat) :
    (extractPageTextC acc [] n).1 =
      (extractPageTextC acc (extractPageTextC acc [] n).2.1 n).1 ∧
    ((∃ t, acc n = Except.ok t) →
      (extractPageTextC acc [] n).2.2 +
        (extractPageTextC acc (extractPageTextC acc [] n).2.1 n).2.2 = 1) := by
  cases hacc : acc n with
  | ok t =>
    have h1 : extractPageTextC acc [] n = (t, [(n, t)], 1) := by
      unfold extractPageTextC
      rw [show ([] : List (Nat × String)).lookup n = none from rfl, hacc]
    have h2 : extractPageTextC acc [(n, t)] n = (t, [(n, t)], 0) := by
      unfold extractPageTextC
      rw [show ([(n, t)] : List (Nat × String)).lookup n = some t by
        simp [List.lookup]]
    rw [h1, h2]
    exact ⟨rfl, fun _ => rfl⟩
  | error e =>
    have h1 : extractPageTextC acc [] n = ("", [], 1) := by
      unfold extractPageTextC
      rw [show ([] : List (Nat × String)).lookup n = none from rfl, hacc]
    refine ⟨?_, ?_⟩
    · rw [h1]
      dsimp only
      rw [h1]
    · rintro ⟨t, ht⟩
      cases ht

/-- Witness for C10 with a concrete succeeding accessor. -/
theorem C10_cache_idempotent_witness :
    (∃ t, (fun _ => Except.ok "hello" : PageGetter) 4 = Except.ok t) ∧
    (extractPageTextC (fun _ => Except.ok "hello") [] 4).2.2 +
      (extractPageTextC (fun _ => Except.ok "hello")
        (extractPageTextC (fun _ => Except.ok "hello") [] 4).2.1 4).2.2 = 1 :=
  ⟨⟨"hello", rfl⟩,
    (C10_cache_idempotent (fun _ => Except.ok "hello") 4).2 ⟨"hello", rfl⟩⟩

end HKEX

